import Mathlib

/-!
Verification of the grammar-correction app (`src/app.js`).

Strings are modelled as `List Char`.  JavaScript's `String.prototype.slice`
with non-negative indices clamps out-of-range indices, which is exactly the
behaviour of `List.take` / `List.drop` on natural numbers, so the splice
algorithm of `correctWithLanguageTool` is embedded with `take`/`drop`.

`Array.prototype.sort` with the comparator `(a, b) => b.offset - a.offset`
produces the stable descending-by-offset ordering (ECMAScript mandates a
stable sort); `List.insertionSort` with the relation `b.offset ≤ a.offset`
computes exactly that stable descending ordering.
-/

/-- A finding returned by the remote grammar checker (`response.data.matches`
in `src/app.js`): a character offset, a span length and the ordered candidate
replacement strings (the `value` field of each replacement object).  The
diagnostic `context` field is only logged by the code and is omitted. -/
structure LTMatch where
  offset : Nat
  length : Nat
  replacements : List (List Char)
deriving DecidableEq, Repr

/-- Loop body of `correctWithLanguageTool` (src/app.js lines 47-57): if the
match has at least one replacement candidate, replace the substring
`[offset, offset+length)` of the current string with the first candidate,
otherwise leave the string unchanged. -/
def applyMatch (s : List Char) (m : LTMatch) : List Char :=
  match m.replacements with
  | [] => s
  | r :: _ => s.take m.offset ++ r ++ s.drop (m.offset + m.length)

/-- The ordering used by `matches.sort((a, b) => b.offset - a.offset)`:
descending by offset. -/
def matchDescOrder (a b : LTMatch) : Prop := b.offset ≤ a.offset

instance : DecidableRel matchDescOrder := fun a b =>
  inferInstanceAs (Decidable (b.offset ≤ a.offset))

instance : IsTotal LTMatch matchDescOrder :=
  ⟨fun a b => Nat.le_total b.offset a.offset⟩

instance : IsTrans LTMatch matchDescOrder :=
  ⟨fun _ _ _ h1 h2 => Nat.le_trans h2 h1⟩

/-- The stable descending sort performed by
`matches.sort((a, b) => b.offset - a.offset)` in src/app.js line 44. -/
def sortMatches (ms : List LTMatch) : List LTMatch :=
  List.insertionSort matchDescOrder ms

/-- The splice algorithm of `correctWithLanguageTool` (src/app.js lines
40-57): sort the matches by offset descending, then fold the one-match splice
over the current string. -/
def correctWithLanguageTool (text : List Char) (ms : List LTMatch) : List Char :=
  (sortMatches ms).foldl applyMatch text

/-- Two matches are non-overlapping when their half-open spans
`[offset, offset+length)` are disjoint. -/
def SpansDisjoint (a b : LTMatch) : Prop :=
  a.offset + a.length ≤ b.offset ∨ b.offset + b.length ≤ a.offset

instance : DecidableRel SpansDisjoint := fun a b =>
  inferInstanceAs
    (Decidable (a.offset + a.length ≤ b.offset ∨ b.offset + b.length ≤ a.offset))

/-- What the match contributes to the output according to the specification:
its first replacement candidate, or — when it has no candidate — the original
text of its span, unmodified. -/
def firstRepOrSpan (text : List Char) (m : LTMatch) : List Char :=
  match m.replacements with
  | [] => (text.drop m.offset).take m.length
  | r :: _ => r

/-- Modelled from the spec's wording of the splicing property: for a
descending-ordered list of matches, the result keeps every character of
`text` after the last span verbatim, has each target span exactly replaced by
its first candidate (or kept unmodified when there is no candidate), and
recursively treats the prefix before the span the same way.  This is the
specification-side description that the code is compared against. -/
def spliceSpec (text : List Char) : List LTMatch → List Char
  | [] => text
  | m :: ms =>
      spliceSpec (text.take m.offset) ms ++ firstRepOrSpan text m ++
        text.drop (m.offset + m.length)

/-- Chained bounds for a descending list of matches: the head span ends at or
before `n`, and every later span ends at or before the previous offset. -/
def ChainBound : Nat → List LTMatch → Prop
  | _, [] => True
  | n, m :: ms => m.offset + m.length ≤ n ∧ ChainBound m.offset ms

theorem chainBound_mono {n n' : Nat} {ms : List LTMatch}
    (h : ChainBound n ms) (hle : n ≤ n') : ChainBound n' ms := by
  cases ms with
  | nil => trivial
  | cons m ms => exact ⟨Nat.le_trans h.1 hle, h.2⟩

theorem applyMatch_append {A B : List Char} {m : LTMatch}
    (h : m.offset + m.length ≤ A.length) :
    applyMatch (A ++ B) m = applyMatch A m ++ B := by
  unfold applyMatch
  cases m.replacements with
  | nil => rfl
  | cons r rs =>
      have ho : m.offset ≤ A.length := Nat.le_trans (Nat.le_add_right _ _) h
      rw [List.take_append_of_le_length ho, List.drop_append_of_le_length h]
      simp [List.append_assoc]

theorem applyMatch_length_ge {A : List Char} {m : LTMatch}
    (h : m.offset ≤ A.length) : m.offset ≤ (applyMatch A m).length := by
  unfold applyMatch
  cases m.replacements with
  | nil => exact h
  | cons r rs =>
      simp only [List.length_append, List.length_take]
      omega

theorem foldl_applyMatch_append :
    ∀ (ms : List LTMatch) (A B : List Char), ChainBound A.length ms →
      ms.foldl applyMatch (A ++ B) = ms.foldl applyMatch A ++ B := by
  intro ms
  induction ms with
  | nil => intro A B _; rfl
  | cons m rest ih =>
      intro A B h
      have h1 : m.offset + m.length ≤ A.length := h.1
      have ho : m.offset ≤ A.length := Nat.le_trans (Nat.le_add_right _ _) h1
      have hchain : ChainBound (applyMatch A m).length rest :=
        chainBound_mono h.2 (applyMatch_length_ge ho)
      simp only [List.foldl_cons, applyMatch_append h1]
      exact ih (applyMatch A m) B hchain

theorem spliceSpec_append {A B : List Char} {ms : List LTMatch}
    (h : ChainBound A.length ms) :
    spliceSpec (A ++ B) ms = spliceSpec A ms ++ B := by
  cases ms with
  | nil => rfl
  | cons m rest =>
      have h1 : m.offset + m.length ≤ A.length := h.1
      have ho : m.offset ≤ A.length := Nat.le_trans (Nat.le_add_right _ _) h1
      have htake : (A ++ B).take m.offset = A.take m.offset :=
        List.take_append_of_le_length ho
      have hdrop : (A ++ B).drop (m.offset + m.length) =
          A.drop (m.offset + m.length) ++ B :=
        List.drop_append_of_le_length h1
      have hrep : firstRepOrSpan (A ++ B) m = firstRepOrSpan A m := by
        unfold firstRepOrSpan
        cases m.replacements with
        | nil =>
            rw [List.drop_append_of_le_length ho]
            have : m.length ≤ (A.drop m.offset).length := by
              simp only [List.length_drop]; omega
            rw [List.take_append_of_le_length this]
        | cons r rs => rfl
      simp only [spliceSpec, htake, hdrop, hrep]
      simp [List.append_assoc]

theorem applyMatch_eq_nil {s : List Char} {m : LTMatch}
    (h : m.replacements = []) : applyMatch s m = s := by
  unfold applyMatch; rw [h]

theorem applyMatch_eq_cons {s : List Char} {m : LTMatch} {r : List Char}
    {rs : List (List Char)} (h : m.replacements = r :: rs) :
    applyMatch s m = s.take m.offset ++ r ++ s.drop (m.offset + m.length) := by
  unfold applyMatch; rw [h]

theorem foldl_applyMatch_eq_spliceSpec :
    ∀ (ms : List LTMatch) (text : List Char), ChainBound text.length ms →
      ms.foldl applyMatch text = spliceSpec text ms := by
  intro ms
  induction ms with
  | nil => intro text _; rfl
  | cons m rest ih =>
      intro text h
      have h1 : m.offset + m.length ≤ text.length := h.1
      have ho : m.offset ≤ text.length := Nat.le_trans (Nat.le_add_right _ _) h1
      have hlen : (text.take m.offset).length = m.offset := by
        simp [List.length_take, Nat.min_eq_left ho]
      have hchainTake : ChainBound (text.take m.offset).length rest := by
        rw [hlen]; exact h.2
      rw [List.foldl_cons]
      cases hrep : m.replacements with
      | nil =>
          rw [applyMatch_eq_nil hrep]
          have htext : rest.foldl applyMatch text = spliceSpec text rest :=
            ih text (chainBound_mono h.2 ho)
          have hsplit : text = text.take m.offset ++ text.drop m.offset :=
            (List.take_append_drop _ _).symm
          have hspec : spliceSpec text rest =
              spliceSpec (text.take m.offset) rest ++ text.drop m.offset := by
            conv_lhs => rw [hsplit]
            exact spliceSpec_append hchainTake
          have hdropSplit : text.drop m.offset =
              (text.drop m.offset).take m.length ++ text.drop (m.offset + m.length) := by
            conv_lhs => rw [← List.take_append_drop m.length (text.drop m.offset)]
            rw [List.drop_drop, Nat.add_comm]
          simp only [spliceSpec, firstRepOrSpan, hrep]
          rw [htext, hspec, List.append_assoc, ← hdropSplit]
      | cons r rs =>
          rw [applyMatch_eq_cons hrep]
          have happ :
              rest.foldl applyMatch
                  (text.take m.offset ++ r ++ text.drop (m.offset + m.length)) =
                rest.foldl applyMatch (text.take m.offset) ++
                  (r ++ text.drop (m.offset + m.length)) := by
            rw [List.append_assoc]
            exact foldl_applyMatch_append rest _ _ hchainTake
          rw [happ, ih (text.take m.offset) hchainTake]
          simp only [spliceSpec, firstRepOrSpan, hrep]
          simp [List.append_assoc]

theorem chainBound_of_sorted :
    ∀ (ms : List LTMatch) (n : Nat), List.Sorted matchDescOrder ms →
      ms.Pairwise SpansDisjoint → (∀ m ∈ ms, 0 < m.length) →
      (∀ m ∈ ms, m.offset + m.length ≤ n) → ChainBound n ms := by
  intro ms
  induction ms with
  | nil => intro n _ _ _ _; trivial
  | cons m rest ih =>
      intro n hsort hdisj hpos hbound
      refine ⟨hbound m (List.mem_cons_self _ _), ?_⟩
      refine ih m.offset (List.sorted_cons.mp hsort).2
        (List.pairwise_cons.mp hdisj).2
        (fun m' hm' => hpos m' (List.mem_cons_of_mem _ hm')) ?_
      intro m' hm'
      have hle : m'.offset ≤ m.offset := (List.sorted_cons.mp hsort).1 m' hm'
      have hd : SpansDisjoint m m' := (List.pairwise_cons.mp hdisj).1 m' hm'
      have hpm : 0 < m.length := hpos m (List.mem_cons_self _ _)
      cases hd with
      | inl h => omega
      | inr h => exact h

theorem spansDisjoint_symm : Symmetric SpansDisjoint := by
  intro a b h
  cases h with
  | inl h => exact Or.inr h
  | inr h => exact Or.inl h

/-- C1: for every input text and every list of pairwise non-overlapping
matches (positive span lengths, as the Match data model requires) whose spans
lie inside the text, the splice algorithm of the Remote Correction Client —
sort by offset descending, then replace each span that has a candidate with
its first candidate — produces exactly the specification-side reconstruction:
each target span is replaced by its first candidate, a match without
candidates leaves its span unmodified, and every character outside the spans
is preserved. -/
theorem correctWithLanguageTool_splices (text : List Char) (ms : List LTMatch)
    (hdisj : ms.Pairwise SpansDisjoint)
    (hpos : ∀ m ∈ ms, 0 < m.length)
    (hbound : ∀ m ∈ ms, m.offset + m.length ≤ text.length) :
    correctWithLanguageTool text ms = spliceSpec text (sortMatches ms) := by
  have hperm : List.Perm (sortMatches ms) ms := List.perm_insertionSort matchDescOrder ms
  have hsorted : List.Sorted matchDescOrder (sortMatches ms) :=
    List.sorted_insertionSort matchDescOrder ms
  have hdisj' : (sortMatches ms).Pairwise SpansDisjoint :=
    (hperm.pairwise_iff (fun h => spansDisjoint_symm h)).mpr hdisj
  have hchain : ChainBound text.length (sortMatches ms) :=
    chainBound_of_sorted _ _ hsorted hdisj'
      (fun m hm => hpos m (hperm.mem_iff.mp hm))
      (fun m hm => hbound m (hperm.mem_iff.mp hm))
  exact foldl_applyMatch_eq_spliceSpec _ _ hchain

/-- C1 witness: a concrete instance — two disjoint in-bounds matches, one
with a candidate and one without — evaluated on a concrete text. -/
theorem correctWithLanguageTool_splices_witness :
    correctWithLanguageTool ("hello world".data)
        [⟨0, 5, [("howdy".data)]⟩, ⟨6, 5, []⟩] =
      spliceSpec ("hello world".data)
        (sortMatches [⟨0, 5, [("howdy".data)]⟩, ⟨6, 5, []⟩]) :=
  correctWithLanguageTool_splices ("hello world".data)
    [⟨0, 5, [("howdy".data)]⟩, ⟨6, 5, []⟩]
    (by decide) (by decide) (by decide)

/-- C5: for every text and every pair of non-overlapping matches at offsets 5
and 20 whose first-replacement lengths differ from their match lengths, the
splice algorithm — which sorts by offset descending before editing — returns
the same final string for both orderings of the two-element input list. -/
theorem correctWithLanguageTool_order_insensitive (text : List Char)
    (m5 m20 : LTMatch)
    (h5 : m5.offset = 5) (h20 : m20.offset = 20)
    (hsep : m5.offset + m5.length ≤ m20.offset)
    (hr5 : (m5.replacements.headD []).length ≠ m5.length)
    (hr20 : (m20.replacements.headD []).length ≠ m20.length) :
    correctWithLanguageTool text [m5, m20] =
      correctWithLanguageTool text [m20, m5] := by
  have hsortA : sortMatches [m5, m20] = [m20, m5] := by
    simp [sortMatches, List.insertionSort, List.orderedInsert, matchDescOrder,
      h5, h20]
  have hsortB : sortMatches [m20, m5] = [m20, m5] := by
    simp [sortMatches, List.insertionSort, List.orderedInsert, matchDescOrder,
      h5, h20]
  unfold correctWithLanguageTool
  rw [hsortA, hsortB]

/-- C5 witness: two concrete disjoint matches at offsets 5 and 20 whose
replacement lengths differ from their span lengths, applied in both orders. -/
theorem correctWithLanguageTool_order_insensitive_witness :
    correctWithLanguageTool ("the quick brown fox jumps over it".data)
        [⟨5, 3, [("go".data)]⟩, ⟨20, 2, [("xyz".data)]⟩] =
      correctWithLanguageTool ("the quick brown fox jumps over it".data)
        [⟨20, 2, [("xyz".data)]⟩, ⟨5, 3, [("go".data)]⟩] :=
  correctWithLanguageTool_order_insensitive _ _ _ rfl rfl (by decide)
    (by decide) (by decide)

/-- Length contributed by the first replacement candidate of a match (zero
when there is none). -/
def replFirstLen (m : LTMatch) : Nat :=
  match m.replacements with
  | [] => 0
  | r :: _ => r.length

theorem applyMatch_length_le (s : List Char) (m : LTMatch) :
    (applyMatch s m).length ≤ s.length + replFirstLen m := by
  unfold applyMatch replFirstLen
  cases m.replacements with
  | nil => exact Nat.le_add_right _ _
  | cons r rs =>
      simp only [List.length_append, List.length_take, List.length_drop]
      omega

theorem foldl_applyMatch_length_le :
    ∀ (ms : List LTMatch) (s : List Char),
      (ms.foldl applyMatch s).length ≤ s.length + (ms.map replFirstLen).sum := by
  intro ms
  induction ms with
  | nil => intro s; simp
  | cons m rest ih =>
      intro s
      calc ((m :: rest).foldl applyMatch s).length
          ≤ (applyMatch s m).length + (rest.map replFirstLen).sum := ih _
        _ ≤ s.length + replFirstLen m + (rest.map replFirstLen).sum :=
            Nat.add_le_add_right (applyMatch_length_le s m) _
        _ = s.length + ((m :: rest).map replFirstLen).sum := by
            simp [List.sum_cons, Nat.add_assoc]

/-- C10: the splice loop is total over arbitrary match lists — for every
input string and every list of matches, including matches whose offsets or
spans fall outside the current string or overlap each other, it produces a
result string (the clamping `take`/`drop` model of `String.slice` never
fails), and that result is no longer than the input plus the lengths of the
first replacement candidates. -/
theorem correctWithLanguageTool_total (text : List Char) (ms : List LTMatch) :
    ∃ r, correctWithLanguageTool text ms = r ∧
      r.length ≤ text.length + (ms.map replFirstLen).sum := by
  refine ⟨correctWithLanguageTool text ms, rfl, ?_⟩
  have hperm : List.Perm (sortMatches ms) ms :=
    List.perm_insertionSort matchDescOrder ms
  have hsum : ((sortMatches ms).map replFirstLen).sum =
      (ms.map replFirstLen).sum :=
    (hperm.map replFirstLen).sum_eq
  calc (correctWithLanguageTool text ms).length
      ≤ text.length + ((sortMatches ms).map replFirstLen).sum :=
        foldl_applyMatch_length_le (sortMatches ms) text
    _ = text.length + (ms.map replFirstLen).sum := by rw [hsum]

/-!
Fallback corrector (`enhancedFallbackCorrections`, src/app.js lines 76-123).

The regular expressions of the rule table all have the shape
`\b(w₁|w₂|…)suffix\b` with the `gi` flags, where the alternatives and the
suffix are literal ASCII words.  A rule is embedded as its list of
alternatives, each a pair (captured-group part, suffix part), plus its
replacement (a literal template that may contain the `$1` backreference, or
a function — mirroring the string/function dynamic dispatch of the source).
Global case-insensitive replacement is a left-to-right scan over the string;
the scan carries the structurally decreasing fuel `s.length` (a match always
consumes at least one character, so the fuel never runs out — the fuel-zero
branch returns the remaining input unchanged and is unreachable).

Case-insensitive matching without the `u` flag never folds a non-ASCII
character onto an ASCII one, so folding only `A`-`Z` is faithful for these
ASCII patterns.  `\w`/`\b` use the ASCII word-character class
`[A-Za-z0-9_]`.  Whitespace is modelled by the ASCII part of `\s`.
-/

/-- The `\w` (and `\b`) word-character class: `[A-Za-z0-9_]`. -/
def isWordChar (c : Char) : Bool :=
  ('a' ≤ c && c ≤ 'z') || ('A' ≤ c && c ≤ 'Z') || ('0' ≤ c && c ≤ '9') || c == '_'

/-- ASCII whitespace as matched by `\s` and removed by `trim`. -/
def isSpaceChar (c : Char) : Bool :=
  c == ' ' || c == '\t' || c == '\n' || c == '\r' ||
    c == Char.ofNat 11 || c == Char.ofNat 12

/-- Sentence-ending punctuation `[.!?]`. -/
def isPunctSent (c : Char) : Bool :=
  c == '.' || c == '!' || c == '?'

/-- The punctuation class `[.,!?]` of the first normalization pass. -/
def isPunctStop (c : Char) : Bool :=
  c == '.' || c == ',' || c == '!' || c == '?'

/-- The `[a-z]` class of the capitalization pass. -/
def isLowerAZ (c : Char) : Bool := 'a' ≤ c && c ≤ 'z'

/-- ASCII lowercasing, as `toLowerCase` acts on the ASCII range. -/
def lowerChar (c : Char) : Char :=
  if 'A' ≤ c && c ≤ 'Z' then Char.ofNat (c.toNat + 32) else c

/-- ASCII uppercasing, as `toUpperCase` acts on `[a-z]`. -/
def upperChar (c : Char) : Char :=
  if 'a' ≤ c && c ≤ 'z' then Char.ofNat (c.toNat - 32) else c

def lowerStr (s : List Char) : List Char := s.map lowerChar

/-- Case-insensitive literal matching: `ciMatch p s` returns the consumed
prefix of `s` (in its original case) and the remainder when `s` starts with
the lowercase pattern `p` up to ASCII case. -/
def ciMatch : List Char → List Char → Option (List Char × List Char)
  | [], s => some ([], s)
  | _ :: _, [] => none
  | p :: ps, c :: cs =>
      if lowerChar c = p then
        match ciMatch ps cs with
        | some (m, r) => some (c :: m, r)
        | none => none
      else none

/-- The trailing `\b` of each rule pattern: every pattern ends in a word
character, so the boundary holds exactly when the remainder is empty or
starts with a non-word character. -/
def afterBoundary : List Char → Bool
  | [] => true
  | c :: _ => !isWordChar c

/-- Try one alternative `(group, suffix)` at the current position, returning
(captured group text, full matched text, remainder). -/
def matchAlt (alt : List Char × List Char) (s : List Char) :
    Option (List Char × List Char × List Char) :=
  match ciMatch alt.1 s with
  | none => none
  | some (mg, s1) =>
      match ciMatch alt.2 s1 with
      | none => none
      | some (ms, r) => if afterBoundary r then some (mg, mg ++ ms, r) else none

/-- Regex alternation tries the alternatives left to right at one position. -/
def firstAltMatch (alts : List (List Char × List Char)) (s : List Char) :
    Option (List Char × List Char × List Char) :=
  alts.findSome? (fun alt => matchAlt alt s)

/-- A rule's replacement: a literal string (interpreted for the `$1`
backreference, as JavaScript string replacements are) or a function of the
matched text — the tagged variant of the source's string/function dispatch. -/
inductive RuleRep where
  | lit : List Char → RuleRep
  | fn : (List Char → List Char) → RuleRep

/-- One entry of the `corrections` rule table. -/
structure Rule where
  alts : List (List Char × List Char)
  rep : RuleRep

/-- Substitute the captured group for each occurrence of `$1` in a literal
replacement template. -/
def expandTemplate (g : List Char) : List Char → List Char
  | '$' :: '1' :: rest => g ++ expandTemplate g rest
  | c :: rest => c :: expandTemplate g rest
  | [] => []

def applyRep (rep : RuleRep) (g m : List Char) : List Char :=
  match rep with
  | .lit t => expandTemplate g t
  | .fn f => f m

/-- Left-to-right global replacement scan for one rule.  `prevW` records
whether the character before the current position (in the original string)
is a word character: every pattern starts with a word character, so its
leading `\b` can only hold when `prevW` is false.  After a match the scan
resumes at the remainder with `prevW := true`, because every pattern ends in
a word character.  The fuel starts at the string length and a match consumes
at least one character, so the fuel-zero branch is never reached. -/
def replaceScan (ru : Rule) : Nat → Bool → List Char → List Char
  | 0, _, s => s
  | _ + 1, _, [] => []
  | fuel + 1, prevW, c :: rest =>
      if prevW then c :: replaceScan ru fuel (isWordChar c) rest
      else
        match firstAltMatch ru.alts (c :: rest) with
        | some (g, m, r) => applyRep ru.rep g m ++ replaceScan ru fuel true r
        | none => c :: replaceScan ru fuel (isWordChar c) rest

/-- `corrected.replace(new RegExp(pattern, 'gi'), replacement)` for one rule
of the table. -/
def applyRule (s : List Char) (ru : Rule) : List Char :=
  replaceScan ru s.length false s

/-- The function-valued replacement of the their/there/they're rule
(src/app.js lines 85-91): compare the lowercased match against the three
spellings and return the corresponding (lowercase) literal, else the match. -/
def theirFn (m : List Char) : List Char :=
  if lowerStr m = "their".data then "their".data
  else if lowerStr m = "there".data then "there".data
  else if lowerStr m = "they're".data then "they're".data
  else m

/-- The alternatives of the pattern `\b(their|there|they're)\b`. -/
def theirAlts : List (List Char × List Char) :=
  [("their".data, []), ("there".data, []), ("they're".data, [])]

/-- The function-valued rule of the table (src/app.js line 85). -/
def theirRule : Rule := ⟨theirAlts, .fn theirFn⟩

/-- The `corrections` table of `enhancedFallbackCorrections`, in definition
order (string keys keep insertion order under `Object.entries`). -/
def rulesTable : List Rule :=
  [ ⟨[(([] : List Char), "i".data)], .lit ("I".data)⟩,
    ⟨[(([] : List Char), "me and".data)], .lit ("and I".data)⟩,
    ⟨[("alot".data, ([] : List Char))], .lit ("a lot".data)⟩,
    ⟨[("could".data, " of".data), ("would".data, " of".data),
      ("should".data, " of".data)], .lit ("$1 have".data)⟩,
    theirRule,
    ⟨[("goes".data, ([] : List Char)), ("goed".data, ([] : List Char))],
      .lit ("goes".data)⟩,
    ⟨[("buyed".data, ([] : List Char))], .lit ("bought".data)⟩,
    ⟨[("runned".data, ([] : List Char))], .lit ("ran".data)⟩,
    ⟨[("recieve".data, ([] : List Char))], .lit ("receive".data)⟩,
    ⟨[("seperate".data, ([] : List Char))], .lit ("separate".data)⟩,
    ⟨[("definately".data, ([] : List Char))], .lit ("definitely".data)⟩,
    ⟨[("occured".data, ([] : List Char))], .lit ("occurred".data)⟩ ]

/-- First normalization pass, `corrected.replace(/\s+([.,!?])/g, '$1')`:
drop a whitespace run that is immediately followed by `. , ! ?`.  The first
argument buffers (reversed) the whitespace run currently being read. -/
def stripSpaceBeforePunct : List Char → List Char → List Char
  | buf, [] => buf.reverse
  | buf, c :: rest =>
      if isSpaceChar c then stripSpaceBeforePunct (c :: buf) rest
      else if isPunctStop c then c :: stripSpaceBeforePunct [] rest
      else buf.reverse ++ (c :: stripSpaceBeforePunct [] rest)

/-- Second normalization pass, `corrected.replace(/([.!?])\s*(\w)/g, '$1 $2')`:
after sentence punctuation followed (possibly with whitespace) by a word
character, emit exactly one space.  The state holds the pending punctuation
character and the (reversed) whitespace run read after it. -/
def spaceAfterPunct : Option (Char × List Char) → List Char → List Char
  | none, [] => []
  | some (p, ws), [] => p :: ws.reverse
  | none, c :: rest =>
      if isPunctSent c then spaceAfterPunct (some (c, [])) rest
      else c :: spaceAfterPunct none rest
  | some (p, ws), c :: rest =>
      if isSpaceChar c then spaceAfterPunct (some (p, c :: ws)) rest
      else if isWordChar c then p :: ' ' :: c :: spaceAfterPunct none rest
      else if isPunctSent c then
        (p :: ws.reverse) ++ spaceAfterPunct (some (c, [])) rest
      else (p :: ws.reverse) ++ (c :: spaceAfterPunct none rest)

/-- Third normalization pass, `corrected.replace(/\s+/g, ' ')`: collapse
every whitespace run to a single space.  The flag records whether the scan is
inside a run whose single space has already been emitted. -/
def collapseSpaces : Bool → List Char → List Char
  | _, [] => []
  | inRun, c :: rest =>
      if isSpaceChar c then
        if inRun then collapseSpaces true rest
        else ' ' :: collapseSpaces true rest
      else c :: collapseSpaces false rest

/-- Scan for the `[.!?]\s+([a-z])` alternative of the capitalization regex
(the `^\s*` alternative only applies at position 0 and is handled by
`capitalizeSentences`).  The state holds the pending punctuation character
and the (reversed) whitespace run after it; the run must be non-empty for a
match, and the replacement keeps the run as matched. -/
def capScan : Option (Char × List Char) → List Char → List Char
  | none, [] => []
  | some (p, ws), [] => p :: ws.reverse
  | none, c :: rest =>
      if isPunctSent c then capScan (some (c, [])) rest
      else c :: capScan none rest
  | some (p, ws), c :: rest =>
      if isSpaceChar c then capScan (some (p, c :: ws)) rest
      else if ws ≠ [] && isLowerAZ c then
        p :: (ws.reverse ++ (upperChar c :: capScan none rest))
      else if isPunctSent c then (p :: ws.reverse) ++ capScan (some (c, [])) rest
      else (p :: ws.reverse) ++ (c :: capScan none rest)

/-- Capitalization pass,
`corrected.replace(/(^\s*|[.!?]\s+)([a-z])/g, (match, p1, p2) => p1 + p2.toUpperCase())`.
With no `m` flag, `^` anchors only at position 0: uppercase the first letter
after the leading whitespace run when it is `[a-z]`, then continue with the
`[.!?]\s+([a-z])` scan. -/
def capitalizeSentences (s : List Char) : List Char :=
  match s.dropWhile isSpaceChar with
  | c :: t =>
      if isLowerAZ c then s.takeWhile isSpaceChar ++ (upperChar c :: capScan none t)
      else capScan none s
  | [] => capScan none s

/-- `String.prototype.trim` restricted to ASCII whitespace. -/
def jsTrim (s : List Char) : List Char :=
  (((s.dropWhile isSpaceChar).reverse).dropWhile isSpaceChar).reverse

/-- `enhancedFallbackCorrections` (src/app.js lines 76-123): return `''` for
empty input, apply the rule table in order, then the three normalization
passes, then sentence capitalization, then trim. -/
def enhancedFallbackCorrections (text : List Char) : List Char :=
  if text = [] then []
  else
    jsTrim
      (capitalizeSentences
        (collapseSpaces false
          (spaceAfterPunct none
            (stripSpaceBeforePunct [] (rulesTable.foldl applyRule text)))))

theorem ciMatch_lower :
    ∀ (p s m r : List Char), ciMatch p s = some (m, r) → lowerStr m = p := by
  intro p
  induction p with
  | nil =>
      intro s m r h
      simp only [ciMatch, Option.some.injEq, Prod.mk.injEq] at h
      rw [← h.1]; rfl
  | cons p ps ih =>
      intro s m r h
      cases s with
      | nil => simp [ciMatch] at h
      | cons c cs =>
          simp only [ciMatch] at h
          by_cases hc : lowerChar c = p
          · rw [if_pos hc] at h
            cases hrec : ciMatch ps cs with
            | none => rw [hrec] at h; cases h
            | some mr =>
                obtain ⟨m', r'⟩ := mr
                rw [hrec] at h
                simp only [Option.some.injEq, Prod.mk.injEq] at h
                rw [← h.1, lowerStr, List.map_cons, hc]
                exact congrArg (p :: ·) (ih cs m' r' hrec)
          · rw [if_neg hc] at h; cases h

theorem lowerStr_append (a b : List Char) :
    lowerStr (a ++ b) = lowerStr a ++ lowerStr b := by
  simp [lowerStr]

theorem matchAlt_lower {alt : List Char × List Char} {s g m r : List Char}
    (h : matchAlt alt s = some (g, m, r)) : lowerStr m = alt.1 ++ alt.2 := by
  unfold matchAlt at h
  cases h1 : ciMatch alt.1 s with
  | none => rw [h1] at h; simp at h
  | some p1 =>
      obtain ⟨mg, s1⟩ := p1
      rw [h1] at h
      dsimp only at h
      cases h2 : ciMatch alt.2 s1 with
      | none => rw [h2] at h; simp at h
      | some p2 =>
          obtain ⟨ms, r'⟩ := p2
          rw [h2] at h
          dsimp only at h
          by_cases hb : afterBoundary r' = true
          · rw [if_pos hb] at h
            simp only [Option.some.injEq, Prod.mk.injEq] at h
            rw [← h.2.1, lowerStr_append]
            rw [ciMatch_lower _ _ _ _ h1, ciMatch_lower _ _ _ _ h2]
          · rw [if_neg hb] at h; cases h

theorem theirFn_eq_lower_of_match {s g m r : List Char}
    (h : firstAltMatch theirAlts s = some (g, m, r)) :
    theirFn m = lowerStr m := by
  have hm : lowerStr m = "their".data ∨ lowerStr m = "there".data ∨
      lowerStr m = "they're".data := by
    unfold firstAltMatch theirAlts at h
    simp only [List.findSome?_cons] at h
    cases h1 : matchAlt ("their".data, ([] : List Char)) s with
    | some v =>
        rw [h1] at h
        cases h
        have hl := matchAlt_lower h1
        simp only [List.append_nil] at hl
        exact Or.inl hl
    | none =>
        rw [h1] at h
        cases h2 : matchAlt ("there".data, ([] : List Char)) s with
        | some v =>
            rw [h2] at h
            cases h
            have hl := matchAlt_lower h2
            simp only [List.append_nil] at hl
            exact Or.inr (Or.inl hl)
        | none =>
            rw [h2] at h
            cases h3 : matchAlt ("they're".data, ([] : List Char)) s with
            | some v =>
                rw [h3] at h
                cases h
                have hl := matchAlt_lower h3
                simp only [List.append_nil] at hl
                exact Or.inr (Or.inr hl)
            | none => rw [h3] at h; simp at h
  rcases hm with hm | hm | hm <;>
    · unfold theirFn
      rw [hm]
      simp

/-- Two rules over the same alternatives whose replacements agree on every
match scan to the same output. -/
theorem replaceScan_congr (alts : List (List Char × List Char))
    (rep1 rep2 : RuleRep)
    (hrep : ∀ s g m r, firstAltMatch alts s = some (g, m, r) →
      applyRep rep1 g m = applyRep rep2 g m) :
    ∀ (fuel : Nat) (prevW : Bool) (s : List Char),
      replaceScan ⟨alts, rep1⟩ fuel prevW s =
        replaceScan ⟨alts, rep2⟩ fuel prevW s := by
  intro fuel
  induction fuel with
  | zero => intro _ _; rfl
  | succ fuel ih =>
      intro prevW s
      cases s with
      | nil => rfl
      | cons c rest =>
          simp only [replaceScan]
          cases prevW with
          | true =>
              rw [if_pos rfl, if_pos rfl, ih]
          | false =>
              rw [if_neg Bool.false_ne_true, if_neg Bool.false_ne_true]
              cases hm : firstAltMatch alts (c :: rest) with
              | none => dsimp only; rw [ih]
              | some gmr =>
                  obtain ⟨g, m, r⟩ := gmr
                  dsimp only
                  rw [ih, hrep _ _ _ _ hm]

/-- The their/there/they're rule with its replacement function changed to
plain ASCII lowercasing of the matched text. -/
def theirRuleLower : Rule := ⟨theirAlts, .fn lowerStr⟩

/-- C2 counterexample: the their/there/they're rule is not a pass-through —
on the input `"Their"` it produces `"their"` and so changes the string. -/
theorem theirRule_not_identity :
    applyRule ("Their".data) theirRule = ("their".data) ∧
      applyRule ("Their".data) theirRule ≠ ("Their".data) := by
  constructor <;> decide

/-- C2 (amended): the their/there/they're rule is behaviorally identical to
the rule that replaces each matched substring by its ASCII-lowercased form —
a pass-through exactly on matches that are already lowercase, while
capitalized variants are lowercased. -/
theorem theirRule_lowercases (s : List Char) :
    applyRule s theirRule = applyRule s theirRuleLower := by
  unfold applyRule theirRule theirRuleLower
  exact replaceScan_congr theirAlts (.fn theirFn) (.fn lowerStr)
    (fun s g m r h => theirFn_eq_lower_of_match h) s.length false s

theorem space_not_word {c : Char} (h : isSpaceChar c = true) :
    isWordChar c = false := by
  simp only [isSpaceChar, Bool.or_eq_true, beq_iff_eq] at h
  rcases h with ((((h | h) | h) | h) | h) | h <;> subst h <;> rfl

theorem punct_not_word {c : Char} (h : isPunctSent c = true) :
    isWordChar c = false := by
  simp only [isPunctSent, Bool.or_eq_true, beq_iff_eq] at h
  rcases h with (h | h) | h <;> subst h <;> rfl

/-- No sentence punctuation mark directly followed by a word character: the
adjacency the second normalization pass is meant to remove. -/
def SplitOK (a b : Char) : Prop :=
  isPunctSent a = true → isWordChar b = false

theorem chain'_cons_of_all_space :
    ∀ (ws : List Char) (p : Char), (∀ c ∈ ws, isSpaceChar c = true) →
      List.Chain' SplitOK (p :: ws) := by
  intro ws
  induction ws with
  | nil => intro p _; simp
  | cons w ws ih =>
      intro p hws
      rw [List.chain'_cons]
      refine ⟨fun _ => space_not_word (hws w (List.mem_cons_self _ _)), ?_⟩
      exact ih w (fun c hc => hws c (List.mem_cons_of_mem _ hc))

theorem spaceAfterPunct_head_some :
    ∀ (l : List Char) (p : Char) (ws : List Char),
      (spaceAfterPunct (some (p, ws)) l).head? = some p := by
  intro l
  induction l with
  | nil => intro p ws; rfl
  | cons c rest ih =>
      intro p ws
      simp only [spaceAfterPunct]
      by_cases h1 : isSpaceChar c = true
      · rw [if_pos h1]; exact ih p (c :: ws)
      · rw [if_neg h1]
        by_cases h2 : isWordChar c = true
        · rw [if_pos h2]; rfl
        · rw [if_neg h2]
          by_cases h3 : isPunctSent c = true
          · rw [if_pos h3]; rfl
          · rw [if_neg h3]; rfl

theorem spaceAfterPunct_head_none :
    ∀ (l : List Char), (spaceAfterPunct none l).head? = l.head? := by
  intro l
  cases l with
  | nil => rfl
  | cons c rest =>
      simp only [spaceAfterPunct]
      by_cases h : isPunctSent c = true
      · rw [if_pos h]; exact spaceAfterPunct_head_some rest c []
      · rw [if_neg h]; rfl

theorem spaceAfterPunct_chain :
    ∀ (l : List Char) (st : Option (Char × List Char)),
      (∀ p ws, st = some (p, ws) → ∀ c ∈ ws, isSpaceChar c = true) →
      List.Chain' SplitOK (spaceAfterPunct st l) := by
  intro l
  induction l with
  | nil =>
      intro st hst
      cases st with
      | none => simp [spaceAfterPunct]
      | some pws =>
          obtain ⟨p, ws⟩ := pws
          simp only [spaceAfterPunct]
          exact chain'_cons_of_all_space _ p
            (fun c hc => hst p ws rfl c (List.mem_reverse.mp hc))
  | cons c rest ih =>
      intro st hst
      cases st with
      | none =>
          simp only [spaceAfterPunct]
          by_cases h : isPunctSent c = true
          · rw [if_pos h]
            exact ih (some (c, [])) (by
              intro p ws hpw x hx
              injection hpw with hpw'
              injection hpw' with hp hw
              subst hw; cases hx)
          · rw [if_neg h]
            rw [List.chain'_cons']
            refine ⟨?_, ih none (by intro p ws hpw; cases hpw)⟩
            intro y _ hc
            exact absurd hc h
      | some pws =>
          obtain ⟨p, ws⟩ := pws
          have hws : ∀ x ∈ ws, isSpaceChar x = true := hst p ws rfl
          have hwsrev : ∀ x ∈ ws.reverse, isSpaceChar x = true :=
            fun x hx => hws x (List.mem_reverse.mp hx)
          simp only [spaceAfterPunct]
          by_cases h1 : isSpaceChar c = true
          · rw [if_pos h1]
            refine ih (some (p, c :: ws)) ?_
            intro p' ws' hpw x hx
            injection hpw with hpw'
            injection hpw' with hp hw
            subst hw
            cases hx with
            | head => exact h1
            | tail _ hx' => exact hws x hx'
          · rw [if_neg h1]
            by_cases h2 : isWordChar c = true
            · rw [if_pos h2]
              rw [List.chain'_cons, List.chain'_cons, List.chain'_cons']
              refine ⟨fun _ => rfl, fun hsp => absurd hsp (by decide), ?_, ?_⟩
              · intro y _ hc
                rw [punct_not_word hc] at h2
                cases h2
              · exact ih none (by intro p' ws' hpw; cases hpw)
            · rw [if_neg h2]
              by_cases h3 : isPunctSent c = true
              · rw [if_pos h3]
                rw [List.chain'_append]
                refine ⟨chain'_cons_of_all_space _ p hwsrev,
                  ih (some (c, [])) (by
                    intro p' ws' hpw x hx
                    injection hpw with hpw'
                    injection hpw' with hp hw
                    subst hw; cases hx), ?_⟩
                intro x _ y hy
                rw [spaceAfterPunct_head_some] at hy
                injection hy with hy'
                subst hy'
                exact fun _ => punct_not_word h3
              · rw [if_neg h3]
                rw [List.chain'_append]
                refine ⟨chain'_cons_of_all_space _ p hwsrev, ?_, ?_⟩
                · rw [List.chain'_cons']
                  refine ⟨?_, ih none (by intro p' ws' hpw; cases hpw)⟩
                  intro y _ hc
                  exact absurd hc h3
                · intro x _ y hy
                  injection hy with hy'
                  subst hy'
                  intro _
                  simp only [Bool.not_eq_true] at h2
                  exact h2

/-!
Remote-error classification and the `/correct` route handler
(src/app.js lines 62-72 and 126-171).
-/

/-- Message thrown when `error.code === 'ECONNABORTED'` (timeout). -/
def timeoutMessage : List Char :=
  "LanguageTool service is taking too long to respond. Please try again.".data

/-- Message thrown when a response was received (`error.response`). -/
def unavailableMessage : List Char :=
  "LanguageTool service is currently unavailable. Please try again later.".data

/-- Message thrown when no response could be obtained (network failure). -/
def unreachableMessage : List Char :=
  "Unable to connect to grammar service. Using basic corrections instead.".data

/-- Validation message for empty/blank input. -/
def enterTextMessage : List Char :=
  "Please enter some text to correct.".data

/-- Validation message for input longer than 5000 characters. -/
def tooLongMessage : List Char :=
  "Text is too long. Please limit to 5000 characters.".data

/-- The transport outcome the catch block of `correctWithLanguageTool`
inspects: the axios error's `code` and whether a `response` object is
present. -/
structure TransportError where
  code : Option (List Char)
  hasResponse : Bool
deriving DecidableEq

/-- The catch block of `correctWithLanguageTool` (src/app.js lines 62-72):
`ECONNABORTED` → timeout message, else a received response → unavailable
message, else → unreachable message. -/
def classifyRemoteError (e : TransportError) : List Char :=
  if e.code = some ("ECONNABORTED".data) then timeoutMessage
  else if e.hasResponse then unavailableMessage
  else unreachableMessage

/-- The object passed to `res.render('index', …)` by the `/correct`
handler. -/
structure RenderModel where
  corrected : Option (List Char)
  originalText : List Char
  hasResult : Bool
  error : Option (List Char)
deriving DecidableEq

/-- The `/correct` route handler (src/app.js lines 126-171), with the remote
call's outcome passed in as a value: blank input (`!text || trim === ''`,
equivalently `trim = ''`) renders the enter-text error; input longer than
5000 renders the too-long error; otherwise a successful remote call renders
its corrected text and a thrown remote error renders the fallback correction
together with the error's message. -/
def postCorrect (text : List Char) (remote : Except (List Char) (List Char)) :
    RenderModel :=
  if jsTrim text = [] then
    ⟨none, [], false, some enterTextMessage⟩
  else if 5000 < text.length then
    ⟨none, text, false, some tooLongMessage⟩
  else
    match remote with
    | .ok corrected => ⟨some corrected, text, true, none⟩
    | .error msg => ⟨some (enhancedFallbackCorrections text), text, true, some msg⟩

/-- The spec's `usedFallback` flag read off a rendered result: a result was
produced and an error message is attached. -/
def usedFallback (r : RenderModel) : Bool :=
  r.hasResult && r.error.isSome

/-- C3: for every valid input (non-blank after trimming, at most 5000
characters), when the remote client fails with any classified RemoteError the
handler renders `usedFallback = true`, the error field carries that error's
human-readable message, and the corrected text is exactly
`enhancedFallbackCorrections` of the original input — in particular it is
non-null. -/
theorem remote_error_uses_fallback (text : List Char) (e : TransportError)
    (hne : jsTrim text ≠ []) (hlen : text.length ≤ 5000) :
    usedFallback (postCorrect text (.error (classifyRemoteError e))) = true ∧
      (postCorrect text (.error (classifyRemoteError e))).error =
        some (classifyRemoteError e) ∧
      (postCorrect text (.error (classifyRemoteError e))).corrected =
        some (enhancedFallbackCorrections text) := by
  unfold postCorrect
  rw [if_neg hne, if_neg (by omega)]
  exact ⟨rfl, rfl, rfl⟩

/-- C3 witness: the valid input `"hello"` with a network-failure transport
error. -/
theorem remote_error_uses_fallback_witness :
    usedFallback (postCorrect ("hello".data)
        (.error (classifyRemoteError ⟨none, false⟩))) = true ∧
      (postCorrect ("hello".data)
          (.error (classifyRemoteError ⟨none, false⟩))).error =
        some (classifyRemoteError ⟨none, false⟩) ∧
      (postCorrect ("hello".data)
          (.error (classifyRemoteError ⟨none, false⟩))).corrected =
        some (enhancedFallbackCorrections ("hello".data)) :=
  remote_error_uses_fallback ("hello".data) ⟨none, false⟩ (by decide) (by decide)

theorem jsTrim_replicate_a (n : Nat) :
    jsTrim (List.replicate n 'a') = List.replicate n 'a' := by
  have hdrop : ∀ m, (List.replicate m 'a').dropWhile isSpaceChar =
      List.replicate m 'a' := by
    intro m
    cases m with
    | zero => rfl
    | succ k => rw [List.replicate_succ, List.dropWhile_cons]; simp [isSpaceChar]
  unfold jsTrim
  rw [hdrop, List.reverse_replicate, hdrop, List.reverse_replicate]

/-- C4: the handler renders a validation error (no result produced) exactly
when the trimmed input is empty or the raw input exceeds 5000 characters;
when validation fails the rendered result does not depend on the remote
outcome (no remote or fallback correction reaches it) and carries no
corrected text; the boundary inputs of 5000 and 5001 letters `a` pass and
fail validation respectively. -/
theorem validation_error_iff (text : List Char)
    (r r' : Except (List Char) (List Char)) :
    ((postCorrect text r).hasResult = false ↔
        (jsTrim text = [] ∨ 5000 < text.length)) ∧
      ((jsTrim text = [] ∨ 5000 < text.length) →
        postCorrect text r = postCorrect text r' ∧
          (postCorrect text r).corrected = none) ∧
      (postCorrect (List.replicate 5000 'a') r).hasResult = true ∧
      (postCorrect (List.replicate 5001 'a') r).hasResult = false := by
  refine ⟨?_, ?_, ?_, ?_⟩
  · by_cases h1 : jsTrim text = []
    · simp [postCorrect, h1]
    · by_cases h2 : 5000 < text.length
      · simp [postCorrect, h1, h2]
      · unfold postCorrect
        rw [if_neg h1, if_neg h2]
        cases r <;> simp [h1, h2]
  · intro h
    unfold postCorrect
    by_cases h1 : jsTrim text = []
    · rw [if_pos h1, if_pos h1]
      exact ⟨rfl, rfl⟩
    · have h2 : 5000 < text.length := h.resolve_left h1
      rw [if_neg h1, if_neg h1, if_pos h2, if_pos h2]
      exact ⟨rfl, rfl⟩
  · unfold postCorrect
    have hne : jsTrim (List.replicate 5000 'a') ≠ [] := by
      rw [jsTrim_replicate_a]
      intro hcontra
      have hlen := congrArg List.length hcontra
      simp only [List.length_replicate, List.length_nil] at hlen
      exact absurd hlen (by decide)
    have hlt : ¬5000 < (List.replicate 5000 'a').length := by
      rw [List.length_replicate]
      omega
    rw [if_neg hne, if_neg hlt]
    cases r <;> rfl
  · unfold postCorrect
    have hne : jsTrim (List.replicate 5001 'a') ≠ [] := by
      rw [jsTrim_replicate_a]
      intro hcontra
      have hlen := congrArg List.length hcontra
      simp only [List.length_replicate, List.length_nil] at hlen
      exact absurd hlen (by decide)
    have hlt : 5000 < (List.replicate 5001 'a').length := by
      rw [List.length_replicate]
      omega
    rw [if_neg hne, if_pos hlt]

/-- C4 witness: the blank input `" "` fails validation, renders no result and
is independent of the remote outcome. -/
theorem validation_error_iff_witness :
    (postCorrect (" ".data) (.ok ("x".data))).hasResult = false ∧
      postCorrect (" ".data) (.ok ("x".data)) =
        postCorrect (" ".data) (.error ("e".data)) :=
  ⟨(validation_error_iff (" ".data) (.ok ("x".data))
      (.error ("e".data))).1.mpr (Or.inl (by decide)),
    ((validation_error_iff (" ".data) (.ok ("x".data))
      (.error ("e".data))).2.1 (Or.inl (by decide))).1⟩

/-- C8: the catch block's classification is a three-way mapping of the
transport outcome — an aborted/timeout request yields the timeout message, a
received failure response yields the service-unavailable message, and no
response at all yields the unreachable message — and the three messages are
pairwise distinct. -/
theorem classifyRemoteError_threeway :
    (∀ e : TransportError, e.code = some ("ECONNABORTED".data) →
        classifyRemoteError e = timeoutMessage) ∧
      (∀ e : TransportError, e.code ≠ some ("ECONNABORTED".data) →
        e.hasResponse = true → classifyRemoteError e = unavailableMessage) ∧
      (∀ e : TransportError, e.code ≠ some ("ECONNABORTED".data) →
        e.hasResponse = false → classifyRemoteError e = unreachableMessage) ∧
      timeoutMessage ≠ unavailableMessage ∧
      timeoutMessage ≠ unreachableMessage ∧
      unavailableMessage ≠ unreachableMessage := by
  refine ⟨?_, ?_, ?_, by decide, by decide, by decide⟩
  · intro e h
    unfold classifyRemoteError
    rw [if_pos h]
  · intro e h hr
    unfold classifyRemoteError
    rw [if_neg h, if_pos hr]
  · intro e h hr
    unfold classifyRemoteError
    rw [if_neg h, if_neg (by rw [hr]; exact Bool.false_ne_true)]

/-- C8 witness: the three concrete transport outcomes, one per class. -/
theorem classifyRemoteError_threeway_witness :
    classifyRemoteError ⟨some ("ECONNABORTED".data), false⟩ = timeoutMessage ∧
      classifyRemoteError ⟨none, true⟩ = unavailableMessage ∧
      classifyRemoteError ⟨none, false⟩ = unreachableMessage :=
  ⟨classifyRemoteError_threeway.1 _ rfl,
    classifyRemoteError_threeway.2.1 _ (by decide) rfl,
    classifyRemoteError_threeway.2.2.1 _ (by decide) rfl⟩

/-- C6: the fallback corrector collapses the double space after the period
and capitalizes the first letter of the string and the first letter after the
sentence boundary. -/
theorem correctFallback_capitalization :
    enhancedFallbackCorrections ("hello world.  this is nice".data) =
      ("Hello world. This is nice".data) := by
  decide

/-- C7: the whole-word case-insensitive rules replace the standalone `i` with
`I`, `recieve` with `receive`, `seperate` with `separate` and `occured` with
`occurred`, leaving every other word unchanged. -/
theorem correctFallback_misspellings :
    enhancedFallbackCorrections ("i recieve the seperate occured items".data) =
      ("I receive the separate occurred items".data) := by
  decide

/-- C9: the second normalization pass always separates sentence punctuation
from an immediately following word character — its output never contains a
`[.!?]` mark directly followed by a word character, even when the input had
no whitespace at the boundary — and in particular the decimal number in
`"3.14"` is split apart by the fallback corrector. -/
theorem spaceAfterPunct_separates :
    (∀ l : List Char, List.Chain' SplitOK (spaceAfterPunct none l)) ∧
      enhancedFallbackCorrections ("3.14".data) = ("3. 14".data) :=
  ⟨fun l => spaceAfterPunct_chain l none (fun p ws h => by cases h),
    by decide⟩
